import Mathlib

/-!
# Issuer resolution of the keycloak client

A shallow embedding of `issuer.go` (the domain key extractor, the construction of
the issuer manager and issuer resolution) and of the parameter check of the
admin client in `api/users.go`.

Go strings are modelled as Lean strings, that is as sequences of Unicode code
points: the strings considered are those that are valid UTF-8 (the regular
expression engine and `strings.ToLower` of Go both work rune by rune).
Functions of the Go standard library are modelled next to the code that calls
them; tables and functions that the sources do not contain are parameters.
-/

namespace Keycloak

/-! ## Standard library: `unicode`, `strings`, `regexp` -/

/-- The parts of the Go runtime library whose tables are not part of the
sources: `lowerTable` is `unicode.To(unicode.LowerCase, r)` for runes above
`unicode.MaxASCII`, `urlParse` is `net/url.Parse` (the parsed URL is kept
abstract, the error is the returned `error` value). -/
structure StdLib (URL : Type) (GoError : Type) where
  lowerTable : Char → Char
  urlParse : String → Except GoError URL

/-- Go `unicode.ToLower`: ASCII runes are handled by the fast path of the
function, every other rune goes through the case table. -/
def unicodeToLower (lowerTable : Char → Char) (r : Char) : Char :=
  if r.toNat ≤ 0x7F then
    if 'A'.toNat ≤ r.toNat ∧ r.toNat ≤ 'Z'.toNat then Char.ofNat (r.toNat + ('a'.toNat - 'A'.toNat))
    else r
  else lowerTable r

/-- Go `strings.ToLower`: the string with every rune mapped by `unicode.ToLower`. -/
def stringsToLower (lowerTable : Char → Char) (s : String) : String :=
  ⟨s.data.map (unicodeToLower lowerTable)⟩

/-- The class `\w` of Go regular expressions: `[0-9A-Za-z_]`. -/
def isWordChar (c : Char) : Bool :=
  ('0'.toNat ≤ c.toNat && c.toNat ≤ '9'.toNat) ||
  ('A'.toNat ≤ c.toNat && c.toNat ≤ 'Z'.toNat) ||
  ('a'.toNat ≤ c.toNat && c.toNat ≤ 'z'.toNat) ||
  c == '_'

/-- The class `[^\/]`: every rune but the slash (a negated class of Go matches
the newline too). -/
def isNotSlash (c : Char) : Bool := c != '/'

/-- An item of a regular expression: one character of a class, or a class under
the greedy `+`. -/
inductive RegexpItem where
  | one (cls : Char → Bool) : RegexpItem
  | plus (cls : Char → Bool) : RegexpItem

/-- The match of a sequence of items at the start of `text`, chosen as the
`regexp` package of Go chooses it (leftmost-first): a `+` takes one more
character whenever the expression can still match after it, and otherwise stops
where it is.  `none` when there is no match. -/
def regexpMatch : List RegexpItem → List Char → Option (List Char)
  | [], _ => some []
  | .one _ :: _, [] => none
  | .one cls :: items, c :: cs =>
    if cls c then (regexpMatch items cs).map (c :: ·) else none
  | .plus _ :: _, [] => none
  | .plus cls :: items, c :: cs =>
    if cls c then
      match regexpMatch (.plus cls :: items) cs with
      | some m => some (c :: m)
      | none => (regexpMatch items cs).map (c :: ·)
    else none

/-- The regular expression `^\w+:\/\/[^\/]+` of `getProtocolAndDomain`; the
leading `^` allows a match at the start of the text only, which is where
`regexpMatch` matches. -/
def protocolAndDomainRegexp : List RegexpItem :=
  [.plus isWordChar, .one (· == ':'), .one (· == '/'), .one (· == '/'), .plus isNotSlash]

/-- The match of `^\w+:\/\/[^\/]+` in closed form: the longest run of word
characters, `://`, and the longest run without a slash, both runs non-empty
(`regexpMatch_eq_regexpFind` proves it equal to the match of the expression). -/
def regexpFind (text : List Char) : Option (List Char) :=
  let scheme := text.takeWhile isWordChar
  if scheme.isEmpty then none
  else
    match text.dropWhile isWordChar with
    | ':' :: '/' :: '/' :: rest =>
      let host := rest.takeWhile isNotSlash
      if host.isEmpty then none else some (scheme ++ ':' :: '/' :: '/' :: host)
    | _ => none

/-- Go `strings.Split(s, sep)` for a separator of one character: the pieces of
`s` between the occurrences of `sep`, empty pieces included (one piece more than
there are separators). -/
def splitChars (sep : Char) : List Char → List (List Char)
  | [] => [[]]
  | c :: cs =>
    if c = sep then [] :: splitChars sep cs
    else
      match splitChars sep cs with
      | [] => [[c]]
      | piece :: pieces => (c :: piece) :: pieces

/-- Go `strings.Split(s, " ")`. -/
def stringsSplitSpace (s : String) : List String :=
  (splitChars ' ' s.data).map String.mk

/-! ## Go values used by `issuer.go` -/

/-- Go `time.Duration`: a number of nanoseconds. -/
abbrev Duration := Int

/-- Go `time.Second`. -/
def Second : Duration := 1000000000

/-- Go `time.Minute`. -/
def Minute : Duration := 60 * Second

/-- Modelled from the spec: the type `Config` is declared outside the sources;
these are the three fields that `NewIssuerManager` reads (the issuer base URLs
in source form, the cache TTL and the error tolerance). -/
structure Config where
  AddrTokenProvider : String
  CacheTTL : Duration
  ErrorTolerance : Duration

/-- Modelled from the spec: the verification cache is declared outside the
sources; a cache is bound to the parsed URL, the cache TTL and the error
tolerance that its constructor receives. -/
structure VerifierCache (URL : Type) where
  tokenURL : URL
  cacheTTL : Duration
  errTolerance : Duration
  deriving DecidableEq

/-- A value of the interface type `OidcVerifierProvider`: `none` is the nil
interface, `some i` refers to the cache constructed by the call number `i` of
`NewVerifierCache` (two calls never return the same object). -/
abbrev OidcVerifierProvider := Option Nat

/-- Modelled from the spec: the constructor `NewVerifierCache` is declared
outside the sources; a call constructs one more cache from its three arguments
and returns a reference to it.  `heap` lists the caches constructed so far. -/
def NewVerifierCache {URL : Type} (heap : List (VerifierCache URL)) (u : URL)
    (cacheTTL errTolerance : Duration) : OidcVerifierProvider × List (VerifierCache URL) :=
  (some heap.length, heap ++ [⟨u, cacheTTL, errTolerance⟩])

/-- A Go value of type `map[string]V`: the nil map, or a table of entries whose
keys are distinct. -/
inductive GoMap (V : Type) where
  | nil : GoMap V
  | table (entries : List (String × V)) : GoMap V
  deriving DecidableEq

namespace GoMap

/-- Go `make(map[string]V)`: an empty table, which is not the nil map. -/
def make {V : Type} : GoMap V := .table []

/-- The comparison `m == nil`. -/
def isNil {V : Type} : GoMap V → Bool
  | .nil => true
  | .table _ => false

/-- The entries with the value under `k` replaced by `v`, or with `(k, v)` added
when `k` is no key yet. -/
def setEntry {V : Type} (k : String) (v : V) : List (String × V) → List (String × V)
  | [] => [(k, v)]
  | (k1, v1) :: rest => if k1 = k then (k, v) :: rest else (k1, v1) :: setEntry k v rest

/-- The value under `k` among the entries. -/
def getEntry {V : Type} (k : String) : List (String × V) → Option V
  | [] => none
  | (k1, v1) :: rest => if k1 = k then some v1 else getEntry k rest

/-- The statement `m[k] = v`: `none` stands for the run-time panic of an
assignment to an entry of the nil map. -/
def assign {V : Type} (m : GoMap V) (k : String) (v : V) : Option (GoMap V) :=
  match m with
  | .nil => none
  | .table entries => some (.table (setEntry k v entries))

/-- The expression `v, ok := m[k]`: `none` when `ok` is false (always so for the
nil map). -/
def lookup {V : Type} (m : GoMap V) (k : String) : Option V :=
  match m with
  | .nil => none
  | .table entries => getEntry k entries

/-- The keys of the map. -/
def keys {V : Type} : GoMap V → List String
  | .nil => []
  | .table entries => entries.map Prod.fst

/-- Go `len(m)`. -/
def len {V : Type} (m : GoMap V) : Nat := m.keys.length

end GoMap

/-- What a call yields: the values it returns, or a run-time panic. -/
inductive Outcome (α : Type) where
  | returns (a : α) : Outcome α
  | panics : Outcome α
  deriving DecidableEq

/-- A value of type `interface{}` found in a context. -/
inductive CtxValue where
  | str (s : String) : CtxValue
  | other : CtxValue
  deriving DecidableEq

/-- A request context, as far as `GetIssuer` reads it: `issuerDomain` is
`ctx.Value(cs.CtContextIssuerDomain)`, `none` when that is nil. -/
structure Context where
  issuerDomain : Option CtxValue

/-! ## `issuer.go` -/

/-- The struct `issuerManager` of `issuer.go`. -/
structure issuerManager where
  domainToIssuer : GoMap OidcVerifierProvider
  defaultIssuer : OidcVerifierProvider
  deriving DecidableEq

/-- The function `getProtocolAndDomain` of `issuer.go`; `m` is `match[0]` of
`FindStringSubmatch`, the whole match. -/
def getProtocolAndDomain (lowerTable : Char → Char) (URL : String) : String :=
  match regexpMatch protocolAndDomainRegexp URL.data with
  | some m => stringsToLower lowerTable ⟨m⟩
  | none =>
    -- Best effort: if not found return the whole input string
    URL

/-- The local variables of `NewIssuerManager` that its loop updates, with the
caches constructed so far. -/
structure LoopState (URL : Type) where
  heap : List (VerifierCache URL)
  domainToIssuer : GoMap OidcVerifierProvider
  defaultIssuer : OidcVerifierProvider

/-- How the loop of `NewIssuerManager` ends. -/
inductive LoopExit (URL GoError : Type) where
  | completed (st : LoopState URL) : LoopExit URL GoError
  | returned (heap : List (VerifierCache URL)) (err : GoError) : LoopExit URL GoError
  | panicked (heap : List (VerifierCache URL)) : LoopExit URL GoError

/-- The loop `for _, value := range strings.Split(URLs, " ")` of
`NewIssuerManager`, over the values still to come. -/
def issuersLoop {URL GoError : Type} (lib : StdLib URL GoError) (cacheTTL errTolerance : Duration) :
    List String → LoopState URL → LoopExit URL GoError
  | [], st => .completed st
  | value :: values, st =>
    match lib.urlParse value with
    | .error err => .returned st.heap err
    | .ok uToken =>
      let (issuer, heap) := NewVerifierCache st.heap uToken cacheTTL errTolerance
      match st.domainToIssuer.assign (getProtocolAndDomain lib.lowerTable value) issuer with
      | none => .panicked heap
      | some domainToIssuer =>
        let defaultIssuer := if domainToIssuer.isNil then issuer else st.defaultIssuer
        issuersLoop lib cacheTTL errTolerance values ⟨heap, domainToIssuer, defaultIssuer⟩

/-- The result of a call of `NewIssuerManager`: the caches it constructed, in
the order of construction, and the pair `(IssuerManager, error)` it returns
(`none` is nil). -/
structure Built (URL GoError : Type) where
  heap : List (VerifierCache URL)
  outcome : Outcome (Option issuerManager × Option GoError)

/-- The cache TTL that `NewIssuerManager` uses. -/
def resolveCacheTTL (config : Config) : Duration :=
  if config.CacheTTL = 0 then 15 * Minute else config.CacheTTL

/-- The error tolerance that `NewIssuerManager` uses. -/
def resolveErrTolerance (config : Config) : Duration :=
  if config.ErrorTolerance = 0 then Minute else config.ErrorTolerance

/-- The function `NewIssuerManager` of `issuer.go`. -/
def NewIssuerManager {URL GoError : Type} (lib : StdLib URL GoError) (config : Config) :
    Built URL GoError :=
  let URLs := config.AddrTokenProvider
  -- Use default values when clients are not initializing these values
  let cacheTTL := resolveCacheTTL config
  let errTolerance := resolveErrTolerance config
  match issuersLoop lib cacheTTL errTolerance (stringsSplitSpace URLs) ⟨[], GoMap.make, none⟩ with
  | .completed st => ⟨st.heap, .returns (some ⟨st.domainToIssuer, st.defaultIssuer⟩, none)⟩
  | .returned heap err => ⟨heap, .returns (none, some err)⟩
  | .panicked heap => ⟨heap, .panics⟩

/-- The method `GetIssuer` of `issuer.go`, with the manager as the call leaves
it.  The type assertion `rawValue.(string)` panics on a value that is no
string. -/
def GetIssuer (lowerTable : Char → Char) (im : issuerManager) (ctx : Context) :
    Outcome OidcVerifierProvider × issuerManager :=
  match ctx.issuerDomain with
  | some rawValue =>
    -- The issuer domain has been found in the context
    match rawValue with
    | .str s =>
      let issuerDomain := getProtocolAndDomain lowerTable s
      match im.domainToIssuer.lookup issuerDomain with
      | some issuer => (.returns issuer, im)
      | none => (.returns im.defaultIssuer, im)
    | .other => (.panics, im)
  | none => (.returns im.defaultIssuer, im)

/-- The entries of the registry after the assignments
`domainToIssuer[getProtocolAndDomain(value)] = issuer` of the loop for `values`,
when the cache of the first value is the cache number `n`. -/
def registerAll (lowerTable : Char → Char) :
    Nat → List String → List (String × OidcVerifierProvider) → List (String × OidcVerifierProvider)
  | _, [], entries => entries
  | n, value :: values, entries =>
    registerAll lowerTable (n + 1) values
      (GoMap.setEntry (getProtocolAndDomain lowerTable value) (some n) entries)

/-! ## The tokens of the specification -/

/-- White space of the specification: blank, tab, line feed, vertical tab, form
feed, carriage return. -/
def isSpecSpace (c : Char) : Bool :=
  c == ' ' || c == '\t' || c == '\n' || c.toNat == 0x0B || c.toNat == 0x0C || c == '\r'

/-- The pieces of a text between the characters that satisfy `p`. -/
def splitWhen (p : Char → Bool) : List Char → List (List Char)
  | [] => [[]]
  | c :: cs =>
    if p c then [] :: splitWhen p cs
    else
      match splitWhen p cs with
      | [] => [[c]]
      | piece :: pieces => (c :: piece) :: pieces

/-- The tokens as the specification describes them: the text split on white
space, only the non-empty tokens kept. -/
def specTokens (s : String) : List String :=
  ((splitWhen isSpecSpace s.data).filter (fun t => !t.isEmpty)).map String.mk

/-! ## `api/users.go` -/

/-- A plugin of the HTTP request builder: `url.Path`, `url.Param`, `body.JSON`
of a list of strings, and `query.Add`. -/
inductive Plugin where
  | urlPath (path : String) : Plugin
  | urlParam (name value : String) : Plugin
  | bodyJSON (data : List String) : Plugin
  | queryAdd (name value : String) : Plugin
  deriving DecidableEq

/-- A Go `error` value returned by the admin client: one created by
`errors.New` in `api/users.go`, with its message, or one that a request method
of the client returned. -/
inductive ApiError (E : Type) where
  | errorsNew (msg : String) : ApiError E
  | fromRequest (e : E) : ApiError E
  deriving DecidableEq

/-- The declarations that `api/users.go` uses and the sources do not contain:
the constants `MsgErrInvalidParam` and `EvenParams` of the package `keycloak`,
the zero value of `keycloak.UsersPageRepresentation`, the function
`createQueryPlugins`, and the request methods `get`, `put` and `post` of the
client.  A request method acts on the world `W` of the HTTP exchange; no other
function of the package does.  `get` receives the value that `resp` holds and
returns the value it holds after the call; `post` is the method as the code
calls it, with a nil `data`. -/
structure ApiEnv (W E Page : Type) where
  MsgErrInvalidParam : String
  EvenParams : String
  zeroPage : Page
  createQueryPlugins : List String → List Plugin
  get : String → Page → List Plugin → W → (Page × Option E) × W
  put : String → List Plugin → W → Option E × W
  post : String → List Plugin → W → (String × Option E) × W

def userPath : String := "/auth/admin/realms/:realm/users"

def usersAdminExtensionAPIPath : String := "/auth/realms/:realmReq/api/admin/realms/:realm/users"

def userIDPath : String := userPath ++ "/:id"

def executeActionsEmailPath : String := userIDPath ++ "/execute-actions-email"

def sendReminderEmailPath : String := "/auth/realms/:realm/onboarding/sendReminderEmail"

/-- The method `GetUsers` of `api/users.go`. -/
def GetUsers {W E Page : Type} (c : ApiEnv W E Page) (accessToken : String)
    (reqRealmName targetRealmName : String) (paramKV : List String) (w : W) :
    (Page × Option (ApiError E)) × W :=
  let resp := c.zeroPage
  if paramKV.length % 2 ≠ 0 then
    ((resp, some (.errorsNew (c.MsgErrInvalidParam ++ "." ++ c.EvenParams))), w)
  else
    let plugins := c.createQueryPlugins paramKV ++
      [.urlPath usersAdminExtensionAPIPath, .urlParam "realmReq" reqRealmName,
        .urlParam "realm" targetRealmName]
    match c.get accessToken resp plugins w with
    | ((resp, err), w) => ((resp, err.map .fromRequest), w)

/-- The method `ExecuteActionsEmail` of `api/users.go`. -/
def ExecuteActionsEmail {W E Page : Type} (c : ApiEnv W E Page) (accessToken : String)
    (realmName : String) (userID : String) (actions : List String) (paramKV : List String)
    (w : W) : Option (ApiError E) × W :=
  if paramKV.length % 2 ≠ 0 then
    (some (.errorsNew (c.MsgErrInvalidParam ++ "." ++ c.EvenParams)), w)
  else
    let plugins := c.createQueryPlugins paramKV ++
      [.urlPath executeActionsEmailPath, .urlParam "realm" realmName, .urlParam "id" userID,
        .bodyJSON actions]
    match c.put accessToken plugins w with
    | (err, w) => (err.map .fromRequest, w)

/-- The method `SendReminderEmail` of `api/users.go`. -/
def SendReminderEmail {W E Page : Type} (c : ApiEnv W E Page) (accessToken : String)
    (realmName : String) (userID : String) (paramKV : List String) (w : W) :
    Option (ApiError E) × W :=
  if paramKV.length % 2 ≠ 0 then
    (some (.errorsNew (c.MsgErrInvalidParam ++ "." ++ c.EvenParams)), w)
  else
    let newParamKV := paramKV ++ ["userid", userID]
    let plugins := c.createQueryPlugins newParamKV ++
      [.urlPath sendReminderEmailPath, .urlParam "realm" realmName]
    match c.post accessToken plugins w with
    | ((_, err), w) => (err.map .fromRequest, w)

/-! ## Sample environment -/

/-- A case table with three entries of the Unicode table (U+00C9 to U+00E9,
the Kelvin sign U+212A to k, U+0130 to i); every other rune is left as it is. -/
def sampleLowerTable (r : Char) : Char :=
  if r.toNat = 0xC9 then Char.ofNat 0xE9
  else if r.toNat = 0x212A then 'k'
  else if r.toNat = 0x130 then 'i'
  else r

/-- Go `stringContainsCTLByte` of `net/url`: a byte below the space, or 0x7f. -/
def stringContainsCTLByte (s : String) : Bool :=
  s.data.any (fun c => c.toNat < 0x20 || c.toNat = 0x7F)

/-- A library for the evaluation of examples: the parser rejects a string with
an ASCII control character, as `net/url.Parse` does first of all, and accepts
every other string, returning the text in place of the parsed URL.  The
examples below use strings on which `net/url.Parse` decides the same. -/
def sampleLib : StdLib String String where
  lowerTable := sampleLowerTable
  urlParse := fun s =>
    if stringContainsCTLByte s then .error "net/url: invalid control character in URL"
    else .ok s

/-- An HTTP request that the sample client records. -/
structure Request where
  method : String
  accessToken : String
  plugins : List Plugin
  deriving DecidableEq

/-- Pairs of the parameter list as `query.Add` plugins (a last value without a
partner is left out). -/
def sampleQueryPlugins : List String → List Plugin
  | k :: v :: rest => .queryAdd k v :: sampleQueryPlugins rest
  | _ => []

/-- A client for the evaluation of examples: the world is the list of the
requests made so far, every request is recorded and answered without error. -/
def sampleClient : ApiEnv (List Request) String (List String) where
  MsgErrInvalidParam := "invalidParameter"
  EvenParams := "key/value pairs"
  zeroPage := []
  createQueryPlugins := sampleQueryPlugins
  get := fun accessToken _ plugins w => ((["user"], none), w ++ [⟨"GET", accessToken, plugins⟩])
  put := fun accessToken plugins w => (none, w ++ [⟨"PUT", accessToken, plugins⟩])
  post := fun accessToken plugins w => (("", none), w ++ [⟨"POST", accessToken, plugins⟩])

/-! ## Lemmas on the regular expression -/

theorem mem_takeWhile_holds {α : Type} (p : α → Bool) (l : List α) :
    ∀ a ∈ l.takeWhile p, p a = true := by
  induction l with
  | nil => intro a ha; simp at ha
  | cons x xs ih =>
    intro a ha
    by_cases hx : p x = true
    · rw [List.takeWhile_cons_of_pos hx] at ha
      rcases List.mem_cons.mp ha with rfl | h
      · exact hx
      · exact ih a h
    · rw [List.takeWhile_cons_of_neg hx] at ha
      simp at ha

theorem dropWhile_head_fails {α : Type} (p : α → Bool) (l : List α) (x : α) (r : List α)
    (h : l.dropWhile p = x :: r) : p x = false := by
  induction l with
  | nil => simp at h
  | cons y ys ih =>
    by_cases hy : p y = true
    · rw [List.dropWhile_cons_of_pos hy] at h
      exact ih h
    · rw [List.dropWhile_cons_of_neg hy] at h
      cases h
      simpa using hy

theorem takeWhile_run {α : Type} (p : α → Bool) (l r : List α) (hl : ∀ a ∈ l, p a = true)
    (hr : ∀ x t, r = x :: t → p x = false) : (l ++ r).takeWhile p = l := by
  rw [List.takeWhile_append_of_pos hl]
  cases r with
  | nil => simp
  | cons x t =>
    have hx : ¬ (p x = true) := by simp [hr x t rfl]
    rw [List.takeWhile_cons_of_neg hx]
    simp

theorem dropWhile_run {α : Type} (p : α → Bool) (l r : List α) (hl : ∀ a ∈ l, p a = true)
    (hr : ∀ x t, r = x :: t → p x = false) : (l ++ r).dropWhile p = r := by
  rw [List.dropWhile_append_of_pos hl]
  cases r with
  | nil => simp
  | cons x t =>
    have hx : ¬ (p x = true) := by simp [hr x t rfl]
    rw [List.dropWhile_cons_of_neg hx]

/-- The expression matches a text that starts with a run of word characters,
`://` and a run without a slash that ends the text or is followed by a slash;
the match is the text up to the end of the second run. -/
theorem regexpFind_of_form (scheme host tail : List Char)
    (hs : scheme ≠ []) (hw : ∀ c ∈ scheme, isWordChar c = true)
    (hh : host ≠ []) (hn : ∀ c ∈ host, isNotSlash c = true)
    (ht : ∀ x t, tail = x :: t → x = '/') :
    regexpFind (scheme ++ ':' :: '/' :: '/' :: (host ++ tail))
      = some (scheme ++ ':' :: '/' :: '/' :: host) := by
  have hcolon : ∀ x t, (':' :: '/' :: '/' :: (host ++ tail)) = x :: t → isWordChar x = false := by
    intro x t h
    cases h
    decide
  have htail : ∀ x t, tail = x :: t → isNotSlash x = false := by
    intro x t h
    rw [ht x t h]
    decide
  unfold regexpFind
  simp only [takeWhile_run isWordChar scheme _ hw hcolon,
    dropWhile_run isWordChar scheme _ hw hcolon, takeWhile_run isNotSlash host tail hn htail]
  cases scheme with
  | nil => exact absurd rfl hs
  | cons a as =>
    cases host with
    | nil => exact absurd rfl hh
    | cons b bs => simp

/-- A text that the expression matches has the form of `regexpFind_of_form`. -/
theorem regexpFind_some_form (text m : List Char) (h : regexpFind text = some m) :
    ∃ scheme host tail, scheme ≠ [] ∧ (∀ c ∈ scheme, isWordChar c = true) ∧
      host ≠ [] ∧ (∀ c ∈ host, isNotSlash c = true) ∧ (∀ x t, tail = x :: t → x = '/') ∧
      text = scheme ++ ':' :: '/' :: '/' :: (host ++ tail) ∧
      m = scheme ++ ':' :: '/' :: '/' :: host := by
  unfold regexpFind at h
  simp only at h
  split at h
  · cases h
  · rename_i hne
    split at h
    · rename_i rest hdrop
      split at h
      · cases h
      · rename_i hhost
        refine ⟨text.takeWhile isWordChar, rest.takeWhile isNotSlash,
          rest.dropWhile isNotSlash, ?_, mem_takeWhile_holds _ _, ?_, mem_takeWhile_holds _ _,
          ?_, ?_, ?_⟩
        · intro h0; simp [h0] at hne
        · intro h0; simp [h0] at hhost
        · intro x t hx
          have := dropWhile_head_fails isNotSlash rest x t hx
          simpa [isNotSlash] using this
        · rw [List.takeWhile_append_dropWhile, ← hdrop, List.takeWhile_append_dropWhile]
        · simpa using h.symm
    · cases h

/-- The greedy `+` at the end of an expression takes the longest run of its
class. -/
theorem regexpMatch_plus_last (cls : Char → Bool) (text : List Char) :
    regexpMatch [.plus cls] text
      = if (text.takeWhile cls).isEmpty then none else some (text.takeWhile cls) := by
  induction text with
  | nil => simp [regexpMatch]
  | cons c cs ih =>
    by_cases hc : cls c = true
    · rw [regexpMatch, if_pos hc, ih, List.takeWhile_cons_of_pos hc]
      cases htw : cs.takeWhile cls with
      | nil => simp [regexpMatch]
      | cons x xs => simp
    · rw [regexpMatch, if_neg hc, List.takeWhile_cons_of_neg hc]
      simp

/-- The greedy `+` before items that cannot start with a character of its class
takes the longest run of its class. -/
theorem regexpMatch_plus_run (cls : Char → Bool) (items : List RegexpItem)
    (hdisj : ∀ x cs, cls x = true → regexpMatch items (x :: cs) = none)
    (text : List Char) :
    regexpMatch (.plus cls :: items) text
      = if (text.takeWhile cls).isEmpty then none
        else (regexpMatch items (text.dropWhile cls)).map (text.takeWhile cls ++ ·) := by
  induction text with
  | nil => simp [regexpMatch]
  | cons c cs ih =>
    by_cases hc : cls c = true
    · rw [regexpMatch, if_pos hc, ih, List.takeWhile_cons_of_pos hc,
        List.dropWhile_cons_of_pos hc]
      cases cs with
      | nil => simp
      | cons x xs =>
        by_cases hx : cls x = true
        · rw [List.takeWhile_cons_of_pos hx, List.dropWhile_cons_of_pos hx]
          simp only [List.isEmpty_cons, Bool.false_eq_true, if_false]
          cases hm : regexpMatch items (List.dropWhile cls xs) with
          | none => simp [hdisj x xs hx]
          | some m => simp
        · rw [List.takeWhile_cons_of_neg hx, List.dropWhile_cons_of_neg hx]
          simp
    · rw [regexpMatch, if_neg hc, List.takeWhile_cons_of_neg hc]
      simp

/-- The match of the items after the scheme. -/
theorem regexpMatch_separator (text : List Char) :
    regexpMatch [.one (· == ':'), .one (· == '/'), .one (· == '/'), .plus isNotSlash] text
      = match text with
        | ':' :: '/' :: '/' :: rest =>
          if (rest.takeWhile isNotSlash).isEmpty then none
          else some (':' :: '/' :: '/' :: rest.takeWhile isNotSlash)
        | _ => none := by
  split
  · rename_i rest
    simp only [regexpMatch, beq_self_eq_true, if_true, regexpMatch_plus_last]
    split <;> simp
  · rename_i hneg
    cases text with
    | nil => simp [regexpMatch]
    | cons a as =>
      by_cases ha : a = ':'
      · subst ha
        cases as with
        | nil => simp [regexpMatch]
        | cons b bs =>
          by_cases hb : b = '/'
          · subst hb
            cases bs with
            | nil => simp [regexpMatch]
            | cons c cs =>
              by_cases hc : c = '/'
              · subst hc
                exact absurd rfl (hneg cs)
              · simp [regexpMatch, hc]
          · simp [regexpMatch, hb]
      · simp [regexpMatch, ha]

/-- The match of the expression of `getProtocolAndDomain` is the closed form
`regexpFind`. -/
theorem regexpMatch_eq_regexpFind (text : List Char) :
    regexpMatch protocolAndDomainRegexp text = regexpFind text := by
  have hdisj : ∀ x cs, isWordChar x = true →
      regexpMatch [.one (· == ':'), .one (· == '/'), .one (· == '/'), .plus isNotSlash]
        (x :: cs) = none := by
    intro x cs hx
    have hne : x ≠ ':' := by
      intro h
      rw [h] at hx
      revert hx
      decide
    simp [regexpMatch, hne]
  unfold protocolAndDomainRegexp regexpFind
  rw [regexpMatch_plus_run isWordChar _ hdisj, regexpMatch_separator]
  simp only
  split
  · rfl
  · split
    · split <;> simp
    · rfl

theorem getProtocolAndDomain_def (lowerTable : Char → Char) (URL : String) :
    getProtocolAndDomain lowerTable URL
      = match regexpFind URL.data with
        | some m => stringsToLower lowerTable ⟨m⟩
        | none => URL := by
  unfold getProtocolAndDomain
  rw [regexpMatch_eq_regexpFind]

theorem string_data_ne_nil (s : String) (h : s ≠ "") : s.data ≠ [] := by
  intro h0
  apply h
  cases s
  simp_all

theorem schemeSep_data : ("://" : String).data = [':', '/', '/'] := rfl

theorem slash_data : ("/" : String).data = ['/'] := rfl

/-- A text that starts with word characters, `://` and a character that is no
slash is matched by the expression. -/
theorem regexpFind_isSome_of_starts (s : List Char) (c : Char) (rest : List Char)
    (hs : s ≠ []) (hw : ∀ x ∈ s, isWordChar x = true) (hc : c ≠ '/') :
    (regexpFind (s ++ ':' :: '/' :: '/' :: c :: rest)).isSome = true := by
  have h := regexpFind_of_form s (c :: rest.takeWhile isNotSlash) (rest.dropWhile isNotSlash) hs hw
    (by simp)
    (by
      intro x hx
      rcases List.mem_cons.mp hx with rfl | hx
      · simpa [isNotSlash] using hc
      · exact mem_takeWhile_holds _ _ _ hx)
    (by
      intro x t hx
      have := dropWhile_head_fails isNotSlash rest x t hx
      simpa [isNotSlash] using this)
  rw [List.cons_append, List.takeWhile_append_dropWhile] at h
  rw [h]
  rfl

/-- The key of a text of the form scheme, `://`, host, slash, rest. -/
theorem getProtocolAndDomain_of_form (lowerTable : Char → Char) (s h rest : String)
    (hs : s ≠ "") (hw : ∀ c ∈ s.data, isWordChar c = true)
    (hh : h ≠ "") (hslash : '/' ∉ h.data) :
    getProtocolAndDomain lowerTable (s ++ "://" ++ h ++ "/" ++ rest)
      = stringsToLower lowerTable (s ++ "://" ++ h) := by
  have hfind := regexpFind_of_form s.data h.data ('/' :: rest.data)
    (string_data_ne_nil s hs) hw (string_data_ne_nil h hh)
    (by
      intro c hc
      have : c ≠ '/' := fun h0 => hslash (h0 ▸ hc)
      simpa [isNotSlash] using this)
    (by intro x t hx; cases hx; rfl)
  have hdata : (s ++ "://" ++ h ++ "/" ++ rest).data
      = s.data ++ ':' :: '/' :: '/' :: (h.data ++ '/' :: rest.data) := by
    simp [String.data_append, schemeSep_data, slash_data]
  have hdata2 : (s ++ "://" ++ h : String) = ⟨s.data ++ ':' :: '/' :: '/' :: h.data⟩ := by
    apply String.ext
    simp [String.data_append, schemeSep_data]
  rw [getProtocolAndDomain_def]
  rw [hdata, hfind, hdata2]

/-- C3: on a string made of a non-empty run of word characters, `://`, a
non-empty host without a slash, a slash and any rest, `getProtocolAndDomain`
returns the lowercase of scheme, `://` and host, and the result is the same for
every rest. -/
theorem getProtocolAndDomain_scheme_host (lowerTable : Char → Char) (s h rest : String)
    (hs : s ≠ "") (hw : ∀ c ∈ s.data, isWordChar c = true)
    (hh : h ≠ "") (hslash : '/' ∉ h.data) :
    getProtocolAndDomain lowerTable (s ++ "://" ++ h ++ "/" ++ rest)
        = stringsToLower lowerTable (s ++ "://" ++ h) ∧
      ∀ rest2 : String, getProtocolAndDomain lowerTable (s ++ "://" ++ h ++ "/" ++ rest2)
        = getProtocolAndDomain lowerTable (s ++ "://" ++ h ++ "/" ++ rest) := by
  refine ⟨getProtocolAndDomain_of_form lowerTable s h rest hs hw hh hslash, ?_⟩
  intro rest2
  rw [getProtocolAndDomain_of_form lowerTable s h rest hs hw hh hslash,
    getProtocolAndDomain_of_form lowerTable s h rest2 hs hw hh hslash]

theorem getProtocolAndDomain_scheme_host_witness :
    getProtocolAndDomain sampleLowerTable ("HTTPS" ++ "://" ++ "Idp.Example:8443" ++ "/" ++ "Auth/Realms?x=1#top")
        = "https://idp.example:8443" ∧
      ∀ rest2 : String,
        getProtocolAndDomain sampleLowerTable ("HTTPS" ++ "://" ++ "Idp.Example:8443" ++ "/" ++ rest2)
          = getProtocolAndDomain sampleLowerTable
              ("HTTPS" ++ "://" ++ "Idp.Example:8443" ++ "/" ++ "Auth/Realms?x=1#top") :=
  ⟨by decide,
    (getProtocolAndDomain_scheme_host sampleLowerTable "HTTPS" "Idp.Example:8443"
      "Auth/Realms?x=1#top" (by decide) (by decide) (by decide) (by decide)).2⟩

/-- C4: a string that does not start with one or more word characters, `://`
and a character other than the slash is returned as it is, letter case and
blanks included. -/
theorem getProtocolAndDomain_no_match (lowerTable : Char → Char) (u : String)
    (h : ¬ ∃ (s : String) (c : Char) (rest : String), s ≠ "" ∧
      (∀ x ∈ s.data, isWordChar x = true) ∧ c ≠ '/' ∧
      u = s ++ "://" ++ String.singleton c ++ rest) :
    getProtocolAndDomain lowerTable u = u := by
  rw [getProtocolAndDomain_def]
  cases hfind : regexpFind u.data with
  | none => rfl
  | some m =>
    exfalso
    apply h
    obtain ⟨scheme, host, tail, hs, hw, hh, hn, -, htext, -⟩ := regexpFind_some_form _ _ hfind
    cases host with
    | nil => exact absurd rfl hh
    | cons c cs =>
      refine ⟨⟨scheme⟩, c, ⟨cs ++ tail⟩, ?_, hw, ?_, ?_⟩
      · intro h0
        apply hs
        have := congrArg String.data h0
        simpa using this
      · have := hn c (List.mem_cons_self _ _)
        simpa [isNotSlash] using this
      · apply String.ext
        simp [String.data_append, schemeSep_data, htext, String.singleton]

theorem no_form_of_regexpFind_none (u : String) (h : regexpFind u.data = none) :
    ¬ ∃ (s : String) (c : Char) (rest : String), s ≠ "" ∧
      (∀ x ∈ s.data, isWordChar x = true) ∧ c ≠ '/' ∧
      u = s ++ "://" ++ String.singleton c ++ rest := by
  rintro ⟨s, c, rest, hs, hw, hc, rfl⟩
  have := regexpFind_isSome_of_starts s.data c rest.data (string_data_ne_nil s hs) hw hc
  have hdata : (s ++ "://" ++ String.singleton c ++ rest).data
      = s.data ++ ':' :: '/' :: '/' :: c :: rest.data := by
    simp [String.data_append, schemeSep_data, String.singleton]
  rw [hdata] at h
  rw [h] at this
  cases this

theorem getProtocolAndDomain_no_match_witness :
    getProtocolAndDomain sampleLowerTable "" = "" ∧
      getProtocolAndDomain sampleLowerTable " Host/Path " = " Host/Path " ∧
      getProtocolAndDomain sampleLowerTable "http:///x" = "http:///x" ∧
      getProtocolAndDomain sampleLowerTable "HTTP:/Host" = "HTTP:/Host" :=
  ⟨getProtocolAndDomain_no_match sampleLowerTable "" (no_form_of_regexpFind_none _ (by decide)),
    getProtocolAndDomain_no_match sampleLowerTable " Host/Path "
      (no_form_of_regexpFind_none _ (by decide)),
    getProtocolAndDomain_no_match sampleLowerTable "http:///x"
      (no_form_of_regexpFind_none _ (by decide)),
    getProtocolAndDomain_no_match sampleLowerTable "HTTP:/Host"
      (no_form_of_regexpFind_none _ (by decide))⟩

/-! ## Lemmas on `unicode.ToLower` -/

theorem unicodeToLower_cases (lowerTable : Char → Char) (c : Char) :
    (65 ≤ c.toNat ∧ c.toNat ≤ 90 ∧ unicodeToLower lowerTable c = Char.ofNat (c.toNat + 32)) ∨
    (c.toNat ≤ 127 ∧ ¬ (65 ≤ c.toNat ∧ c.toNat ≤ 90) ∧ unicodeToLower lowerTable c = c) ∨
    (127 < c.toNat ∧ unicodeToLower lowerTable c = lowerTable c) := by
  have hA : 'A'.toNat = 65 := rfl
  have hZ : 'Z'.toNat = 90 := rfl
  have ha : 'a'.toNat = 97 := rfl
  unfold unicodeToLower
  rw [hA, hZ, ha]
  by_cases h1 : c.toNat ≤ 0x7F
  · by_cases h2 : 65 ≤ c.toNat ∧ c.toNat ≤ 90
    · left
      refine ⟨h2.1, h2.2, ?_⟩
      rw [if_pos h1, if_pos h2]
    · right; left
      refine ⟨h1, h2, ?_⟩
      rw [if_pos h1, if_neg h2]
  · right; right
    refine ⟨by omega, ?_⟩
    rw [if_neg h1]

theorem char_eq_of_toNat (c : Char) (n : Nat) (h : c.toNat = n) : c = Char.ofNat n := by
  rw [← h, Char.ofNat_toNat]

theorem unicodeToLower_colon (lowerTable : Char → Char) : unicodeToLower lowerTable ':' = ':' := rfl

theorem unicodeToLower_slash (lowerTable : Char → Char) : unicodeToLower lowerTable '/' = '/' := rfl

theorem unicodeToLower_word (lowerTable : Char → Char) (c : Char) (h : isWordChar c = true) :
    isWordChar (unicodeToLower lowerTable c) = true := by
  rcases unicodeToLower_cases lowerTable c with ⟨h1, h2, h3⟩ | ⟨-, -, h3⟩ | ⟨h1, -⟩
  · rw [h3]
    obtain ⟨n, hn⟩ : ∃ n, c.toNat = n := ⟨_, rfl⟩
    rw [hn] at h1 h2 ⊢
    interval_cases n <;> decide
  · rw [h3]; exact h
  · exfalso
    have h0 : '0'.toNat = 48 := rfl
    have h9 : '9'.toNat = 57 := rfl
    have hA : 'A'.toNat = 65 := rfl
    have hZ : 'Z'.toNat = 90 := rfl
    have ha : 'a'.toNat = 97 := rfl
    have hz : 'z'.toNat = 122 := rfl
    unfold isWordChar at h
    rw [h0, h9, hA, hZ, ha, hz] at h
    simp only [Bool.or_eq_true, Bool.and_eq_true, decide_eq_true_eq, beq_iff_eq] at h
    rcases h with ((h | h) | h) | h
    · omega
    · omega
    · omega
    · rw [h] at h1
      revert h1
      decide

theorem unicodeToLower_ne_slash (lowerTable : Char → Char)
    (hslash : ∀ r : Char, 0x7F < r.toNat → lowerTable r ≠ '/')
    (c : Char) (h : c ≠ '/') : unicodeToLower lowerTable c ≠ '/' := by
  rcases unicodeToLower_cases lowerTable c with ⟨h1, h2, h3⟩ | ⟨-, -, h3⟩ | ⟨h1, h3⟩
  · rw [h3]
    obtain ⟨n, hn⟩ : ∃ n, c.toNat = n := ⟨_, rfl⟩
    rw [hn] at h1 h2 ⊢
    interval_cases n <;> decide
  · rw [h3]; exact h
  · rw [h3]; exact hslash c h1

theorem unicodeToLower_idem (lowerTable : Char → Char)
    (hidem : ∀ r : Char, 0x7F < r.toNat →
      unicodeToLower lowerTable (lowerTable r) = lowerTable r)
    (c : Char) :
    unicodeToLower lowerTable (unicodeToLower lowerTable c) = unicodeToLower lowerTable c := by
  rcases unicodeToLower_cases lowerTable c with ⟨h1, h2, h3⟩ | ⟨-, -, h3⟩ | ⟨h1, h3⟩
  · rw [h3]
    obtain ⟨n, hn⟩ : ∃ n, c.toNat = n := ⟨_, rfl⟩
    rw [hn] at h1 h2 ⊢
    interval_cases n <;> rfl
  · rw [h3, h3]
  · rw [h3]; exact hidem c h1

/-- The key of a string is a fixed point of `getProtocolAndDomain`, for a case
table that maps no rune to the slash and whose values are in lowercase. -/
theorem getProtocolAndDomain_key_fixed (lowerTable : Char → Char)
    (hslash : ∀ r : Char, 0x7F < r.toNat → lowerTable r ≠ '/')
    (hidem : ∀ r : Char, 0x7F < r.toNat →
      unicodeToLower lowerTable (lowerTable r) = lowerTable r)
    (u : String) :
    getProtocolAndDomain lowerTable (getProtocolAndDomain lowerTable u)
      = getProtocolAndDomain lowerTable u := by
  cases hfind : regexpFind u.data with
  | none =>
    have hu : getProtocolAndDomain lowerTable u = u := by
      rw [getProtocolAndDomain_def, hfind]
    rw [hu, hu]
  | some m =>
    have hu : getProtocolAndDomain lowerTable u = ⟨m.map (unicodeToLower lowerTable)⟩ := by
      rw [getProtocolAndDomain_def, hfind]; rfl
    obtain ⟨scheme, host, tail, hs, hw, hh, hn, -, -, hm⟩ := regexpFind_some_form _ _ hfind
    have hmap : m.map (unicodeToLower lowerTable)
        = scheme.map (unicodeToLower lowerTable) ++
          ':' :: '/' :: '/' :: (host.map (unicodeToLower lowerTable) ++ []) := by
      rw [hm]
      simp [unicodeToLower_colon, unicodeToLower_slash]
    have hfind2 : regexpFind (m.map (unicodeToLower lowerTable))
        = some (m.map (unicodeToLower lowerTable)) := by
      have := regexpFind_of_form (scheme.map (unicodeToLower lowerTable))
        (host.map (unicodeToLower lowerTable)) []
        (by simpa using hs)
        (by
          intro c hc
          obtain ⟨a, ha, rfl⟩ := List.mem_map.mp hc
          exact unicodeToLower_word lowerTable a (hw a ha))
        (by simpa using hh)
        (by
          intro c hc
          obtain ⟨a, ha, rfl⟩ := List.mem_map.mp hc
          have hna : a ≠ '/' := by simpa [isNotSlash] using hn a ha
          simpa [isNotSlash] using unicodeToLower_ne_slash lowerTable hslash a hna)
        (by intro x t hx; cases hx)
      rw [← hmap] at this
      rw [this, hmap]
      simp
    rw [hu]
    rw [getProtocolAndDomain_def]
    simp only [hfind2]
    unfold stringsToLower
    congr 1
    rw [List.map_map]
    apply List.map_congr_left
    intro c _
    exact unicodeToLower_idem lowerTable hidem c

/-! ## The parameter check of the admin client -/

/-- C10: with an odd number of `paramKV` strings, `GetUsers`,
`ExecuteActionsEmail` and `SendReminderEmail` return the error created from
`MsgErrInvalidParam + "." + EvenParams` and leave the world of the HTTP exchange
as it is, whatever the request methods of the client would do (`GetUsers` also
returns the zero page); with an even number each of them makes its one request
and returns what the request returns, which is never an error created by
`errors.New`. -/
theorem paramKV_parity_check {W E Page : Type} (c : ApiEnv W E Page)
    (accessToken reqRealmName targetRealmName realmName userID : String)
    (actions paramKV : List String) (w : W) :
    (paramKV.length % 2 = 1 →
      GetUsers c accessToken reqRealmName targetRealmName paramKV w
          = ((c.zeroPage, some (.errorsNew (c.MsgErrInvalidParam ++ "." ++ c.EvenParams))), w) ∧
        ExecuteActionsEmail c accessToken realmName userID actions paramKV w
          = (some (.errorsNew (c.MsgErrInvalidParam ++ "." ++ c.EvenParams)), w) ∧
        SendReminderEmail c accessToken realmName userID paramKV w
          = (some (.errorsNew (c.MsgErrInvalidParam ++ "." ++ c.EvenParams)), w)) ∧
    (paramKV.length % 2 = 0 →
      (GetUsers c accessToken reqRealmName targetRealmName paramKV w
          = (((c.get accessToken c.zeroPage
                (c.createQueryPlugins paramKV ++
                  [.urlPath usersAdminExtensionAPIPath, .urlParam "realmReq" reqRealmName,
                    .urlParam "realm" targetRealmName]) w).1.1,
              (c.get accessToken c.zeroPage
                (c.createQueryPlugins paramKV ++
                  [.urlPath usersAdminExtensionAPIPath, .urlParam "realmReq" reqRealmName,
                    .urlParam "realm" targetRealmName]) w).1.2.map .fromRequest),
             (c.get accessToken c.zeroPage
                (c.createQueryPlugins paramKV ++
                  [.urlPath usersAdminExtensionAPIPath, .urlParam "realmReq" reqRealmName,
                    .urlParam "realm" targetRealmName]) w).2) ∧
        ExecuteActionsEmail c accessToken realmName userID actions paramKV w
          = ((c.put accessToken
                (c.createQueryPlugins paramKV ++
                  [.urlPath executeActionsEmailPath, .urlParam "realm" realmName,
                    .urlParam "id" userID, .bodyJSON actions]) w).1.map .fromRequest,
             (c.put accessToken
                (c.createQueryPlugins paramKV ++
                  [.urlPath executeActionsEmailPath, .urlParam "realm" realmName,
                    .urlParam "id" userID, .bodyJSON actions]) w).2) ∧
        SendReminderEmail c accessToken realmName userID paramKV w
          = ((c.post accessToken
                (c.createQueryPlugins (paramKV ++ ["userid", userID]) ++
                  [.urlPath sendReminderEmailPath, .urlParam "realm" realmName]) w).1.2.map
                .fromRequest,
             (c.post accessToken
                (c.createQueryPlugins (paramKV ++ ["userid", userID]) ++
                  [.urlPath sendReminderEmailPath, .urlParam "realm" realmName]) w).2)) ∧
      ∀ msg : String,
        (GetUsers c accessToken reqRealmName targetRealmName paramKV w).1.2
            ≠ some (.errorsNew msg) ∧
          (ExecuteActionsEmail c accessToken realmName userID actions paramKV w).1
            ≠ some (.errorsNew msg) ∧
          (SendReminderEmail c accessToken realmName userID paramKV w).1
            ≠ some (.errorsNew msg)) := by
  constructor
  · intro hodd
    have h : paramKV.length % 2 ≠ 0 := by omega
    refine ⟨?_, ?_, ?_⟩
    · simp only [GetUsers, if_pos h]
    · simp only [ExecuteActionsEmail, if_pos h]
    · simp only [SendReminderEmail, if_pos h]
  · intro heven
    have h : ¬ (paramKV.length % 2 ≠ 0) := by omega
    have hmap : ∀ (o : Option E) (msg : String),
        o.map ApiError.fromRequest ≠ some (ApiError.errorsNew msg) := by
      intro o msg
      cases o <;> simp
    have h1 := show GetUsers c accessToken reqRealmName targetRealmName paramKV w = _ by
      simp only [GetUsers, if_neg h]
      exact rfl
    have h2 := show ExecuteActionsEmail c accessToken realmName userID actions paramKV w = _ by
      simp only [ExecuteActionsEmail, if_neg h]
      exact rfl
    have h3 := show SendReminderEmail c accessToken realmName userID paramKV w = _ by
      simp only [SendReminderEmail, if_neg h]
      exact rfl
    refine ⟨⟨h1, h2, h3⟩, ?_⟩
    intro msg
    rw [h1, h2, h3]
    exact ⟨hmap _ msg, hmap _ msg, hmap _ msg⟩

theorem paramKV_parity_check_witness :
    (GetUsers sampleClient "token" "master" "demo" ["email"] []
          = (([], some (.errorsNew "invalidParameter.key/value pairs")), []) ∧
        ExecuteActionsEmail sampleClient "token" "demo" "u1" ["UPDATE_PASSWORD"] ["email"] []
          = (some (.errorsNew "invalidParameter.key/value pairs"), []) ∧
        SendReminderEmail sampleClient "token" "demo" "u1" ["email"] []
          = (some (.errorsNew "invalidParameter.key/value pairs"), [])) ∧
      GetUsers sampleClient "token" "master" "demo" ["email", "a@b.c"] []
          = ((["user"], none),
              [⟨"GET", "token", [.queryAdd "email" "a@b.c", .urlPath usersAdminExtensionAPIPath,
                .urlParam "realmReq" "master", .urlParam "realm" "demo"]⟩]) ∧
      SendReminderEmail sampleClient "token" "demo" "u1" [] []
          = (none, [⟨"POST", "token", [.queryAdd "userid" "u1",
              .urlPath sendReminderEmailPath, .urlParam "realm" "demo"]⟩]) :=
  ⟨(paramKV_parity_check sampleClient "token" "master" "demo" "demo" "u1" ["UPDATE_PASSWORD"]
      ["email"] []).1 (by decide),
    ((paramKV_parity_check sampleClient "token" "master" "demo" "demo" "u1" ["UPDATE_PASSWORD"]
      ["email", "a@b.c"] []).2 (by decide)).1.1,
    ((paramKV_parity_check sampleClient "token" "master" "demo" "demo" "u1" ["UPDATE_PASSWORD"]
      [] []).2 (by decide)).1.2.2⟩

/-! ## Lemmas on the map -/

theorem getEntry_setEntry {V : Type} (k k2 : String) (v : V) (entries : List (String × V)) :
    GoMap.getEntry k2 (GoMap.setEntry k v entries)
      = if k2 = k then some v else GoMap.getEntry k2 entries := by
  induction entries with
  | nil =>
    simp only [GoMap.setEntry, GoMap.getEntry]
    by_cases h : k = k2
    · simp [h]
    · have h2 : ¬ k2 = k := fun e => h e.symm
      simp [h, h2]
  | cons e rest ih =>
    obtain ⟨k1, v1⟩ := e
    by_cases h1 : k1 = k
    · subst h1
      simp only [GoMap.setEntry, if_true, GoMap.getEntry]
      by_cases h2 : k1 = k2
      · simp [h2]
      · have h3 : ¬ k2 = k1 := fun e => h2 e.symm
        simp [h2, h3]
    · simp only [GoMap.setEntry, if_neg h1, GoMap.getEntry, ih]
      by_cases h2 : k1 = k2
      · subst h2
        simp [h1]
      · simp [h2]

theorem keys_setEntry {V : Type} (k : String) (v : V) (entries : List (String × V)) :
    ∀ k2, k2 ∈ (GoMap.setEntry k v entries).map Prod.fst ↔ k2 = k ∨ k2 ∈ entries.map Prod.fst := by
  induction entries with
  | nil => intro k2; simp [GoMap.setEntry]
  | cons e rest ih =>
    obtain ⟨k1, v1⟩ := e
    intro k2
    by_cases h1 : k1 = k
    · subst h1
      simp [GoMap.setEntry]
    · simp only [GoMap.setEntry, if_neg h1, List.map_cons, List.mem_cons, ih k2]
      tauto

theorem nodup_setEntry {V : Type} (k : String) (v : V) (entries : List (String × V))
    (h : (entries.map Prod.fst).Nodup) : ((GoMap.setEntry k v entries).map Prod.fst).Nodup := by
  induction entries with
  | nil => simp [GoMap.setEntry]
  | cons e rest ih =>
    obtain ⟨k1, v1⟩ := e
    rw [List.map_cons, List.nodup_cons] at h
    by_cases h1 : k1 = k
    · subst h1
      simp only [GoMap.setEntry, if_true, List.map_cons, List.nodup_cons]
      exact h
    · simp only [GoMap.setEntry, if_neg h1, List.map_cons, List.nodup_cons]
      refine ⟨?_, ih h.2⟩
      intro hmem
      rcases (keys_setEntry k v rest k1).mp hmem with h2 | h2
      · exact h1 h2
      · exact h.1 h2

theorem getEntry_isSome_iff {V : Type} (k : String) (entries : List (String × V)) :
    (GoMap.getEntry k entries).isSome = true ↔ k ∈ entries.map Prod.fst := by
  induction entries with
  | nil => simp [GoMap.getEntry]
  | cons e rest ih =>
    obtain ⟨k1, v1⟩ := e
    by_cases h1 : k1 = k
    · subst h1
      simp [GoMap.getEntry]
    · have h2 : ¬ k = k1 := fun e => h1 e.symm
      simp [GoMap.getEntry, h1, h2, ih]

/-- A key of the map is a key under which `lookup` finds a value. -/
theorem lookup_isSome_iff {V : Type} (m : GoMap V) (k : String) :
    (m.lookup k).isSome = true ↔ k ∈ m.keys := by
  cases m with
  | nil => simp [GoMap.lookup, GoMap.keys]
  | table entries => exact getEntry_isSome_iff k entries

/-! ## Lemmas on the loop of `NewIssuerManager` -/

theorem keys_registerAll (lowerTable : Char → Char) (values : List String) :
    ∀ (n : Nat) (entries : List (String × OidcVerifierProvider)) (k : String),
      k ∈ (registerAll lowerTable n values entries).map Prod.fst ↔
        k ∈ entries.map Prod.fst ∨ k ∈ values.map (getProtocolAndDomain lowerTable) := by
  induction values with
  | nil => intro n entries k; simp [registerAll]
  | cons t ts ih =>
    intro n entries k
    simp only [registerAll, ih, keys_setEntry, List.map_cons, List.mem_cons]
    tauto

theorem nodup_registerAll (lowerTable : Char → Char) (values : List String) :
    ∀ (n : Nat) (entries : List (String × OidcVerifierProvider)),
      (entries.map Prod.fst).Nodup →
        ((registerAll lowerTable n values entries).map Prod.fst).Nodup := by
  induction values with
  | nil => intro n entries h; simpa [registerAll] using h
  | cons t ts ih =>
    intro n entries h
    simp only [registerAll]
    exact ih _ _ (nodup_setEntry _ _ _ h)

theorem getEntry_registerAll_frame (lowerTable : Char → Char) (values : List String) :
    ∀ (n : Nat) (entries : List (String × OidcVerifierProvider)) (k : String),
      k ∉ values.map (getProtocolAndDomain lowerTable) →
        GoMap.getEntry k (registerAll lowerTable n values entries) = GoMap.getEntry k entries := by
  induction values with
  | nil => intro n entries k _; simp [registerAll]
  | cons t ts ih =>
    intro n entries k hk
    simp only [List.map_cons, List.mem_cons, not_or] at hk
    simp only [registerAll]
    rw [ih _ _ _ hk.2, getEntry_setEntry, if_neg hk.1]

theorem getEntry_registerAll_last (lowerTable : Char → Char) (pre : List String) :
    ∀ (n : Nat) (entries : List (String × OidcVerifierProvider)) (t : String)
      (post : List String),
      getProtocolAndDomain lowerTable t ∉ post.map (getProtocolAndDomain lowerTable) →
        GoMap.getEntry (getProtocolAndDomain lowerTable t)
            (registerAll lowerTable n (pre ++ t :: post) entries)
          = some (some (n + pre.length)) := by
  induction pre with
  | nil =>
    intro n entries t post hpost
    simp only [List.nil_append, registerAll, List.length_nil, Nat.add_zero]
    rw [getEntry_registerAll_frame lowerTable post _ _ _ hpost, getEntry_setEntry, if_pos rfl]
  | cons p ps ih =>
    intro n entries t post hpost
    have h := ih (n + 1)
      (GoMap.setEntry (getProtocolAndDomain lowerTable p) (some n) entries) t post hpost
    rw [List.cons_append, registerAll, h, List.length_cons]
    congr 2
    omega

theorem issuersLoop_cons_ok {URL GoError : Type} (lib : StdLib URL GoError)
    (ttl tol : Duration) (t : String) (ts : List String) (heap : List (VerifierCache URL))
    (entries : List (String × OidcVerifierProvider)) (d : OidcVerifierProvider) (u : URL)
    (h : lib.urlParse t = .ok u) :
    issuersLoop lib ttl tol (t :: ts) ⟨heap, .table entries, d⟩
      = issuersLoop lib ttl tol ts
          ⟨heap ++ [⟨u, ttl, tol⟩],
            .table (GoMap.setEntry (getProtocolAndDomain lib.lowerTable t) (some heap.length)
              entries), d⟩ := by
  rw [issuersLoop]
  simp [h, NewVerifierCache, GoMap.assign, GoMap.isNil]

theorem issuersLoop_cons_error {URL GoError : Type} (lib : StdLib URL GoError)
    (ttl tol : Duration) (t : String) (ts : List String) (st : LoopState URL) (e : GoError)
    (h : lib.urlParse t = .error e) :
    issuersLoop lib ttl tol (t :: ts) st = .returned st.heap e := by
  rw [issuersLoop]
  simp [h]

/-- When every value parses, the loop completes: it has constructed one cache
for each value, in order, with the two durations, has assigned each of them in
the registry, and has left the default issuer as it was. -/
theorem issuersLoop_completed {URL GoError : Type} (lib : StdLib URL GoError)
    (ttl tol : Duration) (ts : List String) :
    ∀ (heap : List (VerifierCache URL)) (entries : List (String × OidcVerifierProvider))
      (d : OidcVerifierProvider),
      (∀ t ∈ ts, ∃ u, lib.urlParse t = .ok u) →
        ∃ cs, issuersLoop lib ttl tol ts ⟨heap, .table entries, d⟩
            = .completed ⟨heap ++ cs,
                .table (registerAll lib.lowerTable heap.length ts entries), d⟩ ∧
          List.Forall₂ (fun t c => lib.urlParse t = .ok c.tokenURL ∧ c.cacheTTL = ttl ∧
            c.errTolerance = tol) ts cs := by
  induction ts with
  | nil =>
    intro heap entries d _
    exact ⟨[], by simp [issuersLoop, registerAll], List.Forall₂.nil⟩
  | cons t ts ih =>
    intro heap entries d hall
    obtain ⟨u, hu⟩ := hall t (List.mem_cons_self _ _)
    obtain ⟨cs, hcs, hrel⟩ := ih (heap ++ [⟨u, ttl, tol⟩])
      (GoMap.setEntry (getProtocolAndDomain lib.lowerTable t) (some heap.length) entries) d
      (fun x hx => hall x (List.mem_cons_of_mem _ hx))
    refine ⟨⟨u, ttl, tol⟩ :: cs, ?_, List.Forall₂.cons ⟨hu, rfl, rfl⟩ hrel⟩
    rw [issuersLoop_cons_ok lib ttl tol t ts heap entries d u hu, hcs]
    simp [registerAll]

/-- When a value does not parse and the values before it do, the loop returns
the error of that value; it has constructed the caches of the values before. -/
theorem issuersLoop_returned {URL GoError : Type} (lib : StdLib URL GoError)
    (ttl tol : Duration) (pre : List String) :
    ∀ (heap : List (VerifierCache URL)) (entries : List (String × OidcVerifierProvider))
      (d : OidcVerifierProvider) (t : String) (post : List String) (e : GoError),
      (∀ p ∈ pre, ∃ u, lib.urlParse p = .ok u) → lib.urlParse t = .error e →
        ∃ cs, issuersLoop lib ttl tol (pre ++ t :: post) ⟨heap, .table entries, d⟩
            = .returned (heap ++ cs) e ∧
          List.Forall₂ (fun t c => lib.urlParse t = .ok c.tokenURL ∧ c.cacheTTL = ttl ∧
            c.errTolerance = tol) pre cs := by
  induction pre with
  | nil =>
    intro heap entries d t post e _ he
    exact ⟨[], by simp [issuersLoop_cons_error lib ttl tol t post _ e he], List.Forall₂.nil⟩
  | cons p ps ih =>
    intro heap entries d t post e hall he
    obtain ⟨u, hu⟩ := hall p (List.mem_cons_self _ _)
    obtain ⟨cs, hcs, hrel⟩ := ih (heap ++ [⟨u, ttl, tol⟩])
      (GoMap.setEntry (getProtocolAndDomain lib.lowerTable p) (some heap.length) entries) d
      t post e (fun x hx => hall x (List.mem_cons_of_mem _ hx)) he
    refine ⟨⟨u, ttl, tol⟩ :: cs, ?_, List.Forall₂.cons ⟨hu, rfl, rfl⟩ hrel⟩
    rw [List.cons_append, issuersLoop_cons_ok lib ttl tol p _ heap entries d u hu, hcs]
    simp

/-- Either every value parses, or there is a first value that does not. -/
theorem first_failure {URL GoError : Type} (lib : StdLib URL GoError) (ts : List String) :
    (∀ t ∈ ts, ∃ u, lib.urlParse t = .ok u) ∨
      ∃ pre t post e, ts = pre ++ t :: post ∧ (∀ p ∈ pre, ∃ u, lib.urlParse p = .ok u) ∧
        lib.urlParse t = .error e := by
  induction ts with
  | nil => left; intro t ht; simp at ht
  | cons x xs ih =>
    cases hx : lib.urlParse x with
    | error e => right; exact ⟨[], x, xs, e, rfl, by simp, hx⟩
    | ok u =>
      rcases ih with hall | ⟨pre, t, post, e, hts, hpre, he⟩
      · left
        intro t ht
        rcases List.mem_cons.mp ht with rfl | h
        · exact ⟨u, hx⟩
        · exact hall t h
      · right
        refine ⟨x :: pre, t, post, e, by simp [hts], ?_, he⟩
        intro p hp
        rcases List.mem_cons.mp hp with rfl | h
        · exact ⟨u, hx⟩
        · exact hpre p h

/-! ## `NewIssuerManager` -/

theorem NewIssuerManager_of_all_parse {URL GoError : Type} (lib : StdLib URL GoError)
    (config : Config)
    (hall : ∀ t ∈ stringsSplitSpace config.AddrTokenProvider, ∃ u, lib.urlParse t = .ok u) :
    ∃ cs, NewIssuerManager lib config
        = ⟨cs, .returns (some ⟨.table (registerAll lib.lowerTable 0
            (stringsSplitSpace config.AddrTokenProvider) []), none⟩, none)⟩ ∧
      List.Forall₂ (fun t c => lib.urlParse t = .ok c.tokenURL ∧
        c.cacheTTL = resolveCacheTTL config ∧ c.errTolerance = resolveErrTolerance config)
        (stringsSplitSpace config.AddrTokenProvider) cs := by
  obtain ⟨cs, hcs, hrel⟩ := issuersLoop_completed lib (resolveCacheTTL config)
    (resolveErrTolerance config) (stringsSplitSpace config.AddrTokenProvider) [] [] none hall
  refine ⟨cs, ?_, hrel⟩
  unfold NewIssuerManager
  simp only [GoMap.make, hcs]
  simp

theorem NewIssuerManager_of_first_failure {URL GoError : Type} (lib : StdLib URL GoError)
    (config : Config) (pre : List String) (t : String) (post : List String) (e : GoError)
    (hts : stringsSplitSpace config.AddrTokenProvider = pre ++ t :: post)
    (hpre : ∀ p ∈ pre, ∃ u, lib.urlParse p = .ok u) (he : lib.urlParse t = .error e) :
    ∃ cs, NewIssuerManager lib config = ⟨cs, .returns (none, some e)⟩ ∧
      List.Forall₂ (fun t c => lib.urlParse t = .ok c.tokenURL ∧
        c.cacheTTL = resolveCacheTTL config ∧ c.errTolerance = resolveErrTolerance config)
        pre cs := by
  obtain ⟨cs, hcs, hrel⟩ := issuersLoop_returned lib (resolveCacheTTL config)
    (resolveErrTolerance config) pre [] [] none t post e hpre he
  refine ⟨cs, ?_, hrel⟩
  unfold NewIssuerManager
  simp only [GoMap.make, hts, hcs]
  simp

/-- A call that returns a manager has parsed every value, has constructed one
cache for each, and returns the registry of the loop with a nil default. -/
theorem NewIssuerManager_returns_manager {URL GoError : Type} (lib : StdLib URL GoError)
    (config : Config) (im : issuerManager) (o : Option GoError)
    (h : (NewIssuerManager lib config).outcome = .returns (some im, o)) :
    (∀ t ∈ stringsSplitSpace config.AddrTokenProvider, ∃ u, lib.urlParse t = .ok u) ∧
      o = none ∧
      im = ⟨.table (registerAll lib.lowerTable 0
        (stringsSplitSpace config.AddrTokenProvider) []), none⟩ ∧
      List.Forall₂ (fun t c => lib.urlParse t = .ok c.tokenURL ∧
        c.cacheTTL = resolveCacheTTL config ∧ c.errTolerance = resolveErrTolerance config)
        (stringsSplitSpace config.AddrTokenProvider) (NewIssuerManager lib config).heap := by
  rcases first_failure lib (stringsSplitSpace config.AddrTokenProvider) with
    hall | ⟨pre, t, post, e, hts, hpre, he⟩
  · obtain ⟨cs, hcs, hrel⟩ := NewIssuerManager_of_all_parse lib config hall
    rw [hcs] at h ⊢
    simp only [Outcome.returns.injEq, Prod.mk.injEq, Option.some.injEq] at h
    exact ⟨hall, h.2.symm, h.1.symm, hrel⟩
  · obtain ⟨cs, hcs, -⟩ := NewIssuerManager_of_first_failure lib config pre t post e hts hpre he
    rw [hcs] at h
    simp at h

/-- Every cache that a call constructs has the two resolved durations. -/
theorem NewIssuerManager_heap_durations {URL GoError : Type} (lib : StdLib URL GoError)
    (config : Config) :
    ∀ c ∈ (NewIssuerManager lib config).heap,
      c.cacheTTL = resolveCacheTTL config ∧ c.errTolerance = resolveErrTolerance config := by
  have hforall : ∀ (ts : List String) (cs : List (VerifierCache URL)),
      List.Forall₂ (fun t c => lib.urlParse t = .ok c.tokenURL ∧
        c.cacheTTL = resolveCacheTTL config ∧ c.errTolerance = resolveErrTolerance config)
        ts cs →
      ∀ c ∈ cs, c.cacheTTL = resolveCacheTTL config ∧
        c.errTolerance = resolveErrTolerance config := by
    intro ts cs hrel
    induction hrel with
    | nil => intro c hc; simp at hc
    | cons hhead _ ih =>
      intro c hc
      rcases List.mem_cons.mp hc with rfl | hc
      · exact hhead.2
      · exact ih c hc
  rcases first_failure lib (stringsSplitSpace config.AddrTokenProvider) with
    hall | ⟨pre, t, post, e, hts, hpre, he⟩
  · obtain ⟨cs, hcs, hrel⟩ := NewIssuerManager_of_all_parse lib config hall
    rw [hcs]
    exact hforall _ _ hrel
  · obtain ⟨cs, hcs, hrel⟩ := NewIssuerManager_of_first_failure lib config pre t post e hts
      hpre he
    rw [hcs]
    exact hforall _ _ hrel

/-- The manager that `NewIssuerManager` returns has a nil default issuer: the
map that the loop tests against nil has been made before the loop. -/
theorem NewIssuerManager_defaultIssuer_nil {URL GoError : Type} (lib : StdLib URL GoError)
    (config : Config) (im : issuerManager) (o : Option GoError)
    (h : (NewIssuerManager lib config).outcome = .returns (some im, o)) :
    im.defaultIssuer = none := by
  obtain ⟨-, -, him, -⟩ := NewIssuerManager_returns_manager lib config im o h
  rw [him]

/-- C1: for the three issuer URLs below, which all parse, the code constructs
the cache of the first URL as cache number 0 and registers it, and returns a
manager whose default issuer is nil. -/
theorem NewIssuerManager_three_issuers_default :
    (NewIssuerManager sampleLib
        ⟨"http://a.example http://b.example http://c.example", 0, 0⟩).outcome
      = .returns (some ⟨.table [("http://a.example", some 0), ("http://b.example", some 1),
          ("http://c.example", some 2)], none⟩, none) ∧
    (NewIssuerManager sampleLib
        ⟨"http://a.example http://b.example http://c.example", 0, 0⟩).heap
      = [⟨"http://a.example", 900000000000, 60000000000⟩,
          ⟨"http://b.example", 900000000000, 60000000000⟩,
          ⟨"http://c.example", 900000000000, 60000000000⟩] := by
  decide

/-! ## `GetIssuer` -/

/-- C2: with a string hint whose key is a key of the registry, `GetIssuer`
returns the value stored under that key; with a string hint whose key is no key
of the registry, or without a hint, it returns the default issuer; the manager
is left as it was. -/
theorem GetIssuer_resolution (lowerTable : Char → Char) (im : issuerManager) (ctx : Context) :
    (∀ h, ctx.issuerDomain = some (.str h) →
      getProtocolAndDomain lowerTable h ∈ im.domainToIssuer.keys →
        ∃ issuer, im.domainToIssuer.lookup (getProtocolAndDomain lowerTable h) = some issuer ∧
          (GetIssuer lowerTable im ctx).1 = .returns issuer) ∧
    (∀ h, ctx.issuerDomain = some (.str h) →
      getProtocolAndDomain lowerTable h ∉ im.domainToIssuer.keys →
        (GetIssuer lowerTable im ctx).1 = .returns im.defaultIssuer) ∧
    (ctx.issuerDomain = none → (GetIssuer lowerTable im ctx).1 = .returns im.defaultIssuer) ∧
    (GetIssuer lowerTable im ctx).2 = im := by
  refine ⟨?_, ?_, ?_, ?_⟩
  · intro h hctx hkey
    have hsome := (lookup_isSome_iff im.domainToIssuer _).mpr hkey
    obtain ⟨issuer, hissuer⟩ := Option.isSome_iff_exists.mp hsome
    refine ⟨issuer, hissuer, ?_⟩
    simp [GetIssuer, hctx, hissuer]
  · intro h hctx hkey
    have hnone : im.domainToIssuer.lookup (getProtocolAndDomain lowerTable h) = none := by
      cases hl : im.domainToIssuer.lookup (getProtocolAndDomain lowerTable h) with
      | none => rfl
      | some v =>
        exfalso
        apply hkey
        apply (lookup_isSome_iff im.domainToIssuer _).mp
        rw [hl]
        rfl
    simp [GetIssuer, hctx, hnone]
  · intro hctx
    simp [GetIssuer, hctx]
  · unfold GetIssuer
    cases ctx.issuerDomain with
    | none => rfl
    | some rawValue =>
      cases rawValue with
      | other => rfl
      | str s =>
        simp only
        cases im.domainToIssuer.lookup (getProtocolAndDomain lowerTable s) <;> rfl

theorem GetIssuer_resolution_witness :
    GetIssuer sampleLowerTable
        ⟨.table [("http://a.example", some 0), ("http://b.example", some 1)], some 0⟩
        ⟨some (.str "HTTP://B.Example/auth/realms/demo")⟩
      = (.returns (some 1),
          ⟨.table [("http://a.example", some 0), ("http://b.example", some 1)], some 0⟩) ∧
    (GetIssuer sampleLowerTable
        ⟨.table [("http://a.example", some 0), ("http://b.example", some 1)], some 0⟩
        ⟨some (.str "http://c.example/auth")⟩).1 = .returns (some 0) ∧
    (GetIssuer sampleLowerTable
        ⟨.table [("http://a.example", some 0), ("http://b.example", some 1)], some 0⟩
        ⟨none⟩).1 = .returns (some 0) ∧
    (GetIssuer sampleLowerTable ⟨.nil, none⟩ ⟨some (.str "http://c.example/auth")⟩).1
      = .returns none := by
  refine ⟨?_, ?_, ?_, ?_⟩
  · have h := GetIssuer_resolution sampleLowerTable
      ⟨.table [("http://a.example", some 0), ("http://b.example", some 1)], some 0⟩
      ⟨some (.str "HTTP://B.Example/auth/realms/demo")⟩
    obtain ⟨issuer, hl, hr⟩ := h.1 "HTTP://B.Example/auth/realms/demo" rfl (by decide)
    have hi : issuer = some 1 := by
      have : (some issuer : Option OidcVerifierProvider) = some (some 1) := by
        rw [← hl]; decide
      exact Option.some.inj this
    exact Prod.ext (by rw [hr, hi]) h.2.2.2
  · exact (GetIssuer_resolution sampleLowerTable _ _).2.1 "http://c.example/auth" rfl
      (by decide)
  · exact (GetIssuer_resolution sampleLowerTable _ _).2.2.1 rfl
  · exact (GetIssuer_resolution sampleLowerTable _ _).2.1 "http://c.example/auth" rfl
      (by decide)

/-! ## Lemmas on `strings.Split` -/

theorem splitChars_ne_nil (sep : Char) (l : List Char) : splitChars sep l ≠ [] := by
  cases l with
  | nil => simp [splitChars]
  | cons c cs =>
    by_cases h : c = sep
    · simp [splitChars, h]
    · simp only [splitChars, if_neg h]
      split <;> simp

theorem intercalate_cons_of_ne_nil (sep p : List Char) (ps : List (List Char)) (h : ps ≠ []) :
    List.intercalate sep (p :: ps) = p ++ sep ++ List.intercalate sep ps := by
  cases ps with
  | nil => exact absurd rfl h
  | cons q qs => simp [List.intercalate, List.intersperse]

theorem intercalate_cons_cons_head (sep : List Char) (c : Char) (p : List Char)
    (ps : List (List Char)) :
    List.intercalate sep ((c :: p) :: ps) = c :: List.intercalate sep (p :: ps) := by
  cases ps with
  | nil => simp [List.intercalate, List.intersperse]
  | cons q qs => simp [List.intercalate, List.intersperse]

/-- The pieces joined by the separator give the text back. -/
theorem splitChars_intercalate (sep : Char) (l : List Char) :
    List.intercalate [sep] (splitChars sep l) = l := by
  induction l with
  | nil => simp [splitChars, List.intercalate, List.intersperse]
  | cons c cs ih =>
    by_cases h : c = sep
    · simp only [splitChars, if_pos h]
      rw [intercalate_cons_of_ne_nil _ _ _ (splitChars_ne_nil sep cs), ih, h]
      simp
    · simp only [splitChars, if_neg h]
      cases hs : splitChars sep cs with
      | nil => exact absurd hs (splitChars_ne_nil sep cs)
      | cons q qs =>
        simp only
        rw [intercalate_cons_cons_head, ← hs, ih]

/-- No piece contains the separator. -/
theorem splitChars_no_sep (sep : Char) (l : List Char) :
    ∀ piece ∈ splitChars sep l, sep ∉ piece := by
  induction l with
  | nil => intro piece hp; simp [splitChars] at hp; simp [hp]
  | cons c cs ih =>
    intro piece hp
    by_cases h : c = sep
    · simp only [splitChars, if_pos h, List.mem_cons] at hp
      rcases hp with rfl | hp
      · simp
      · exact ih piece hp
    · simp only [splitChars, if_neg h] at hp
      cases hs : splitChars sep cs with
      | nil => exact absurd hs (splitChars_ne_nil sep cs)
      | cons q qs =>
        rw [hs] at hp ih
        simp only [List.mem_cons] at hp
        rcases hp with rfl | hp
        · intro hmem
          rcases List.mem_cons.mp hmem with h1 | h1
          · exact h h1.symm
          · exact ih q (List.mem_cons_self _ _) h1
        · exact ih piece (List.mem_cons_of_mem _ hp)

/-- There is one piece more than there are separators in the text. -/
theorem splitChars_length (sep : Char) (l : List Char) :
    (splitChars sep l).length = l.count sep + 1 := by
  induction l with
  | nil => simp [splitChars]
  | cons c cs ih =>
    by_cases h : c = sep
    · subst h
      simp only [splitChars, if_true, List.length_cons, ih, List.count_cons_self]
    · simp only [splitChars, if_neg h]
      cases hs : splitChars sep cs with
      | nil => exact absurd hs (splitChars_ne_nil sep cs)
      | cons q qs =>
        rw [hs] at ih
        simp only [List.length_cons] at ih ⊢
        have hne : sep ≠ c := fun e => h e.symm
        rw [List.count_cons_of_ne hne, ih]

/-! ## The claims on `NewIssuerManager` -/

theorem all_parse_of_toBool {URL GoError : Type} (lib : StdLib URL GoError) (ts : List String)
    (h : ts.all (fun t => (lib.urlParse t).toBool) = true) :
    ∀ t ∈ ts, ∃ u, lib.urlParse t = .ok u := by
  intro t ht
  have := List.all_eq_true.mp h t ht
  cases hp : lib.urlParse t with
  | ok u => exact ⟨u, rfl⟩
  | error e => rw [hp] at this; cases this

/-- C5: `NewIssuerManager` returns an error exactly when some value of the
split `AddrTokenProvider` does not parse; it then returns the error of the
first such value with a nil manager, whatever values come before; when every
value parses it returns a manager with a nil error.  It never panics. -/
theorem NewIssuerManager_error_iff {URL GoError : Type} (lib : StdLib URL GoError)
    (config : Config) :
    ((∃ t ∈ stringsSplitSpace config.AddrTokenProvider, ∃ e, lib.urlParse t = .error e) ↔
        ∃ e, (NewIssuerManager lib config).outcome = .returns (none, some e)) ∧
    (∀ pre t post e, stringsSplitSpace config.AddrTokenProvider = pre ++ t :: post →
        (∀ p ∈ pre, ∃ u, lib.urlParse p = .ok u) → lib.urlParse t = .error e →
          (NewIssuerManager lib config).outcome = .returns (none, some e)) ∧
    ((∀ t ∈ stringsSplitSpace config.AddrTokenProvider, ∃ u, lib.urlParse t = .ok u) →
        ∃ im, (NewIssuerManager lib config).outcome = .returns (some im, none)) ∧
    ((∃ e, (NewIssuerManager lib config).outcome = .returns (none, some e)) ∨
        ∃ im, (NewIssuerManager lib config).outcome = .returns (some im, none)) := by
  have hfail : ∀ pre t post e, stringsSplitSpace config.AddrTokenProvider = pre ++ t :: post →
      (∀ p ∈ pre, ∃ u, lib.urlParse p = .ok u) → lib.urlParse t = .error e →
        (NewIssuerManager lib config).outcome = .returns (none, some e) := by
    intro pre t post e hts hpre he
    obtain ⟨cs, hcs, -⟩ := NewIssuerManager_of_first_failure lib config pre t post e hts hpre he
    rw [hcs]
  have hok : (∀ t ∈ stringsSplitSpace config.AddrTokenProvider, ∃ u, lib.urlParse t = .ok u) →
      ∃ im, (NewIssuerManager lib config).outcome = .returns (some im, none) := by
    intro hall
    obtain ⟨cs, hcs, -⟩ := NewIssuerManager_of_all_parse lib config hall
    exact ⟨_, by rw [hcs]⟩
  refine ⟨⟨?_, ?_⟩, hfail, hok, ?_⟩
  · rintro ⟨t, ht, e, he⟩
    rcases first_failure lib (stringsSplitSpace config.AddrTokenProvider) with
      hall | ⟨pre, t2, post, e2, hts, hpre, he2⟩
    · obtain ⟨u, hu⟩ := hall t ht
      rw [hu] at he
      cases he
    · exact ⟨e2, hfail pre t2 post e2 hts hpre he2⟩
  · rintro ⟨e, he⟩
    rcases first_failure lib (stringsSplitSpace config.AddrTokenProvider) with
      hall | ⟨pre, t2, post, e2, hts, hpre, he2⟩
    · obtain ⟨im, him⟩ := hok hall
      rw [him] at he
      simp at he
    · exact ⟨t2, by rw [hts]; simp, e2, he2⟩
  · rcases first_failure lib (stringsSplitSpace config.AddrTokenProvider) with
      hall | ⟨pre, t2, post, e2, hts, hpre, he2⟩
    · right; exact hok hall
    · left; exact ⟨e2, hfail pre t2 post e2 hts hpre he2⟩

theorem NewIssuerManager_error_iff_witness :
    (NewIssuerManager sampleLib
        ⟨"http://a.example http://b.example/\x7f http://c.example/\x7f\x7f", 5, 7⟩).outcome
      = .returns (none, some "net/url: invalid control character in URL") ∧
    ∃ im, (NewIssuerManager sampleLib ⟨"http://a.example http://b.example", 5, 7⟩).outcome
      = .returns (some im, none) :=
  ⟨(NewIssuerManager_error_iff sampleLib
      ⟨"http://a.example http://b.example/\x7f http://c.example/\x7f\x7f", 5, 7⟩).2.1
      ["http://a.example"] "http://b.example/\x7f" ["http://c.example/\x7f\x7f"]
      "net/url: invalid control character in URL" (by decide)
      (all_parse_of_toBool _ _ (by decide)) rfl,
    (NewIssuerManager_error_iff sampleLib ⟨"http://a.example http://b.example", 5, 7⟩).2.2.1
      (all_parse_of_toBool _ _ (by decide))⟩

/-- C6: every cache that `NewIssuerManager` constructs has the cache TTL of the
configuration when that is not zero and 15 minutes when it is zero, and the
error tolerance of the configuration when that is not zero and 1 minute when it
is zero (durations in nanoseconds). -/
theorem NewIssuerManager_cache_durations {URL GoError : Type} (lib : StdLib URL GoError)
    (config : Config) (c : VerifierCache URL) (hc : c ∈ (NewIssuerManager lib config).heap) :
    (config.CacheTTL ≠ 0 → c.cacheTTL = config.CacheTTL) ∧
    (config.CacheTTL = 0 → c.cacheTTL = 900000000000) ∧
    (config.ErrorTolerance ≠ 0 → c.errTolerance = config.ErrorTolerance) ∧
    (config.ErrorTolerance = 0 → c.errTolerance = 60000000000) := by
  obtain ⟨h1, h2⟩ := NewIssuerManager_heap_durations lib config c hc
  rw [h1, h2]
  refine ⟨?_, ?_, ?_, ?_⟩
  · intro h; simp [resolveCacheTTL, h]
  · intro h; simp [resolveCacheTTL, h, Minute, Second]
  · intro h; simp [resolveErrTolerance, h]
  · intro h; simp [resolveErrTolerance, h, Minute, Second]

theorem NewIssuerManager_cache_durations_witness :
    (NewIssuerManager sampleLib ⟨"http://a.example http://b.example", 0, 0⟩).heap
        = [⟨"http://a.example", 900000000000, 60000000000⟩,
            ⟨"http://b.example", 900000000000, 60000000000⟩] ∧
      (NewIssuerManager sampleLib ⟨"http://a.example http://b.example", 0, 30⟩).heap
        = [⟨"http://a.example", 900000000000, 30⟩, ⟨"http://b.example", 900000000000, 30⟩] ∧
      (NewIssuerManager sampleLib ⟨"http://a.example http://b.example", 20, 0⟩).heap
        = [⟨"http://a.example", 20, 60000000000⟩, ⟨"http://b.example", 20, 60000000000⟩] ∧
      ∃ c ∈ (NewIssuerManager sampleLib ⟨"http://a.example http://b.example/\x7f", 0, 0⟩).heap,
        c.cacheTTL = 900000000000 ∧ c.errTolerance = 60000000000 :=
  ⟨by decide, by decide, by decide,
    ⟨"http://a.example", 900000000000, 60000000000⟩, by decide,
    (NewIssuerManager_cache_durations sampleLib ⟨"http://a.example http://b.example/\x7f", 0, 0⟩
      ⟨"http://a.example", 900000000000, 60000000000⟩ (by decide)).2.1 rfl,
    (NewIssuerManager_cache_durations sampleLib ⟨"http://a.example http://b.example/\x7f", 0, 0⟩
      ⟨"http://a.example", 900000000000, 60000000000⟩ (by decide)).2.2.2 rfl⟩

theorem getProtocolAndDomain_empty (lowerTable : Char → Char) :
    getProtocolAndDomain lowerTable "" = "" := rfl

theorem stringsSplitSpace_data (s : String) :
    (stringsSplitSpace s).map String.data = splitChars ' ' s.data := by
  unfold stringsSplitSpace
  rw [List.map_map]
  have : (String.data ∘ String.mk) = id := by
    funext l
    rfl
  rw [this, List.map_id]

/-- C7 (as stated): for the empty `AddrTokenProvider` the specification has no
token, so its set of keys is empty, and the code returns a manager whose
registry holds one entry, under the key of the empty value. -/
theorem NewIssuerManager_empty_config_registry :
    specTokens "" = [] ∧
    (NewIssuerManager sampleLib ⟨"", 0, 0⟩).outcome
      = .returns (some ⟨.table [("", some 0)], none⟩, none) ∧
    ¬ (∀ k, k ∈ (GoMap.table [("", some 0)] : GoMap OidcVerifierProvider).keys ↔
        ∃ t ∈ specTokens "", getProtocolAndDomain sampleLowerTable t = k) := by
  refine ⟨by decide, by decide, ?_⟩
  intro h
  have h1 := (h "").mp (by decide)
  obtain ⟨t, ht, -⟩ := h1
  have h2 : specTokens "" = [] := by decide
  rw [h2] at ht
  cases ht

/-- C7 (amended): `NewIssuerManager` splits `AddrTokenProvider` at every blank
and processes every piece, the empty ones too: when it returns a manager, the
keys of the registry are the keys of the pieces.  The pieces joined by blanks
give `AddrTokenProvider` back, no piece contains a blank, and there is one piece
more than there are blanks; the empty `AddrTokenProvider` gives a registry with
the one key of the empty piece. -/
theorem NewIssuerManager_registry_keys {URL GoError : Type} (lib : StdLib URL GoError)
    (config : Config) (im : issuerManager)
    (h : (NewIssuerManager lib config).outcome = .returns (some im, none)) :
    (∀ k, k ∈ im.domainToIssuer.keys ↔
      ∃ t ∈ stringsSplitSpace config.AddrTokenProvider,
        getProtocolAndDomain lib.lowerTable t = k) ∧
    List.intercalate [' '] ((stringsSplitSpace config.AddrTokenProvider).map String.data)
      = config.AddrTokenProvider.data ∧
    (∀ t ∈ stringsSplitSpace config.AddrTokenProvider, ' ' ∉ t.data) ∧
    (stringsSplitSpace config.AddrTokenProvider).length
      = config.AddrTokenProvider.data.count ' ' + 1 ∧
    (config.AddrTokenProvider = "" → im.domainToIssuer.keys = [""]) := by
  obtain ⟨-, -, him, -⟩ := NewIssuerManager_returns_manager lib config im none h
  refine ⟨?_, ?_, ?_, ?_, ?_⟩
  · intro k
    rw [him]
    simp only [GoMap.keys]
    rw [keys_registerAll]
    simp
  · rw [stringsSplitSpace_data, splitChars_intercalate]
  · intro t ht
    have hmem : t.data ∈ (stringsSplitSpace config.AddrTokenProvider).map String.data :=
      List.mem_map_of_mem _ ht
    rw [stringsSplitSpace_data] at hmem
    exact splitChars_no_sep ' ' _ _ hmem
  · have := congrArg List.length (stringsSplitSpace_data config.AddrTokenProvider)
    rw [List.length_map] at this
    rw [this, splitChars_length]
  · intro hempty
    rw [him, hempty]
    rfl

theorem NewIssuerManager_registry_keys_witness :
    (∀ k, k ∈ (GoMap.table [("http://a.example", some 0), ("", some 3),
          ("http://b.example", some 2)] : GoMap OidcVerifierProvider).keys ↔
        ∃ t ∈ stringsSplitSpace "http://a.example  http://b.example ",
          getProtocolAndDomain sampleLowerTable t = k) ∧
      stringsSplitSpace "http://a.example  http://b.example "
        = ["http://a.example", "", "http://b.example", ""] ∧
      stringsSplitSpace "a\tb" = ["a\tb"] :=
  ⟨(NewIssuerManager_registry_keys sampleLib ⟨"http://a.example  http://b.example ", 0, 0⟩
      ⟨.table [("http://a.example", some 0), ("", some 3), ("http://b.example", some 2)], none⟩
      (by decide)).1,
    by decide, by decide⟩

theorem forall₂_getElem {α β : Type} (R : α → β → Prop) (pre : List α) :
    ∀ (t : α) (post : List α) (cs : List β), List.Forall₂ R (pre ++ t :: post) cs →
      ∃ c, cs[pre.length]? = some c ∧ R t c := by
  induction pre with
  | nil =>
    intro t post cs h
    cases cs with
    | nil => cases h
    | cons c cs2 =>
      rw [List.nil_append, List.forall₂_cons] at h
      exact ⟨c, by simp, h.1⟩
  | cons p ps ih =>
    intro t post cs h
    cases cs with
    | nil => cases h
    | cons c cs2 =>
      rw [List.cons_append, List.forall₂_cons] at h
      obtain ⟨c2, hc, hr⟩ := ih t post cs2 h.2
      exact ⟨c2, by simpa using hc, hr⟩

/-- C8: in the registry of a manager that `NewIssuerManager` returns no key
occurs twice, there are as many entries as there are distinct keys among the
values, and the entry of a key refers to the cache constructed for the last
value with that key. -/
theorem NewIssuerManager_last_write_wins {URL GoError : Type} (lib : StdLib URL GoError)
    (config : Config) (im : issuerManager)
    (h : (NewIssuerManager lib config).outcome = .returns (some im, none)) :
    im.domainToIssuer.keys.Nodup ∧
    im.domainToIssuer.len
      = (((stringsSplitSpace config.AddrTokenProvider).map
          (getProtocolAndDomain lib.lowerTable)).dedup).length ∧
    ∀ pre t post, stringsSplitSpace config.AddrTokenProvider = pre ++ t :: post →
      getProtocolAndDomain lib.lowerTable t ∉ post.map (getProtocolAndDomain lib.lowerTable) →
        im.domainToIssuer.lookup (getProtocolAndDomain lib.lowerTable t)
            = some (some pre.length) ∧
          ∃ c, (NewIssuerManager lib config).heap[pre.length]? = some c ∧
            lib.urlParse t = .ok c.tokenURL := by
  obtain ⟨-, -, him, hrel⟩ := NewIssuerManager_returns_manager lib config im none h
  have hnodup : im.domainToIssuer.keys.Nodup := by
    rw [him]
    exact nodup_registerAll lib.lowerTable _ 0 [] (by simp)
  refine ⟨hnodup, ?_, ?_⟩
  · unfold GoMap.len
    rw [← List.toFinset_card_of_nodup hnodup, ← List.card_toFinset]
    congr 1
    ext k
    rw [List.mem_toFinset, List.mem_toFinset, him]
    simp only [GoMap.keys]
    rw [keys_registerAll]
    simp
  · intro pre t post hts hlast
    constructor
    · rw [him]
      simp only [GoMap.lookup]
      rw [hts, getEntry_registerAll_last lib.lowerTable pre 0 [] t post hlast]
      simp
    · rw [hts] at hrel
      obtain ⟨c, hc, hr⟩ := forall₂_getElem _ pre t post _ hrel
      exact ⟨c, hc, hr.1⟩

theorem NewIssuerManager_last_write_wins_witness :
    (GoMap.table [("http://a.example", some 2), ("http://b.example", some 1)] :
        GoMap OidcVerifierProvider).lookup "http://a.example" = some (some 2) ∧
      (NewIssuerManager sampleLib
          ⟨"http://a.example/x http://b.example HTTP://A.Example/y", 0, 0⟩).heap[2]?
        = some ⟨"HTTP://A.Example/y", 900000000000, 60000000000⟩ ∧
      (GoMap.table [("http://a.example", some 2), ("http://b.example", some 1)] :
        GoMap OidcVerifierProvider).len = 2 := by
  have h := NewIssuerManager_last_write_wins sampleLib
    ⟨"http://a.example/x http://b.example HTTP://A.Example/y", 0, 0⟩
    ⟨.table [("http://a.example", some 2), ("http://b.example", some 1)], none⟩ (by decide)
  refine ⟨?_, by decide, ?_⟩
  · exact (h.2.2 ["http://a.example/x", "http://b.example"] "HTTP://A.Example/y" []
      (by decide) (by decide)).1
  · rw [h.2.1]
    decide

/-! ## Keys are fixed points -/

theorem sampleLowerTable_ne_slash :
    ∀ r : Char, 0x7F < r.toNat → sampleLowerTable r ≠ '/' := by
  intro r hr
  unfold sampleLowerTable
  split
  · decide
  · split
    · decide
    · split
      · decide
      · intro h
        rw [h] at hr
        revert hr
        decide

theorem sampleLowerTable_lower :
    ∀ r : Char, 0x7F < r.toNat →
      unicodeToLower sampleLowerTable (sampleLowerTable r) = sampleLowerTable r := by
  intro r hr
  have hself : sampleLowerTable r = r → unicodeToLower sampleLowerTable r = r := by
    intro h
    rcases unicodeToLower_cases sampleLowerTable r with ⟨-, h2, -⟩ | ⟨h1, -, -⟩ | ⟨-, h3⟩
    · omega
    · omega
    · rw [h3, h]
  by_cases h1 : r.toNat = 0xC9
  · have : sampleLowerTable r = Char.ofNat 0xE9 := by simp [sampleLowerTable, h1]
    rw [this]
    rfl
  · by_cases h2 : r.toNat = 0x212A
    · have : sampleLowerTable r = 'k' := by simp [sampleLowerTable, h2]
      rw [this]
      rfl
    · by_cases h3 : r.toNat = 0x130
      · have : sampleLowerTable r = 'i' := by simp [sampleLowerTable, h3]
        rw [this]
        rfl
      · have : sampleLowerTable r = r := by simp [sampleLowerTable, h1, h2, h3]
        rw [this]
        exact hself this

/-- C9: `getProtocolAndDomain` is idempotent, for a case table of
`unicode.ToLower` that maps no rune to the slash and whose values are in
lowercase; so `GetIssuer` with a key of the registry of a manager built by
`NewIssuerManager` as the hint returns the value stored under that key. -/
theorem getProtocolAndDomain_idempotent {URL GoError : Type} (lib : StdLib URL GoError)
    (hslash : ∀ r : Char, 0x7F < r.toNat → lib.lowerTable r ≠ '/')
    (hlower : ∀ r : Char, 0x7F < r.toNat →
      unicodeToLower lib.lowerTable (lib.lowerTable r) = lib.lowerTable r) :
    (∀ u : String,
      getProtocolAndDomain lib.lowerTable (getProtocolAndDomain lib.lowerTable u)
        = getProtocolAndDomain lib.lowerTable u) ∧
    ∀ (config : Config) (im : issuerManager),
      (NewIssuerManager lib config).outcome = .returns (some im, none) →
        ∀ k ∈ im.domainToIssuer.keys,
          ∃ issuer, im.domainToIssuer.lookup k = some issuer ∧
            GetIssuer lib.lowerTable im ⟨some (.str k)⟩ = (.returns issuer, im) := by
  refine ⟨getProtocolAndDomain_key_fixed lib.lowerTable hslash hlower, ?_⟩
  intro config im h k hk
  obtain ⟨-, -, him, -⟩ := NewIssuerManager_returns_manager lib config im none h
  have hk2 : k ∈ (stringsSplitSpace config.AddrTokenProvider).map
      (getProtocolAndDomain lib.lowerTable) := by
    rw [him] at hk
    simp only [GoMap.keys] at hk
    rw [keys_registerAll] at hk
    simpa using hk
  obtain ⟨t, -, rfl⟩ := List.mem_map.mp hk2
  have hfix := getProtocolAndDomain_key_fixed lib.lowerTable hslash hlower t
  have hsome := (lookup_isSome_iff im.domainToIssuer _).mpr hk
  obtain ⟨issuer, hissuer⟩ := Option.isSome_iff_exists.mp hsome
  refine ⟨issuer, hissuer, ?_⟩
  simp [GetIssuer, hfix, hissuer]

theorem getProtocolAndDomain_idempotent_witness :
    getProtocolAndDomain sampleLowerTable
        (getProtocolAndDomain sampleLowerTable "HTTP://École.Example/Path")
      = getProtocolAndDomain sampleLowerTable "HTTP://École.Example/Path" ∧
    getProtocolAndDomain sampleLowerTable "HTTP://École.Example/Path"
      = "http://école.example" ∧
    ∃ issuer,
      (GoMap.table [("http://a.example", some 0), ("Host", some 1)] :
          GoMap OidcVerifierProvider).lookup "Host" = some issuer ∧
        GetIssuer sampleLowerTable
            ⟨.table [("http://a.example", some 0), ("Host", some 1)], none⟩
            ⟨some (.str "Host")⟩
          = (.returns issuer,
              ⟨.table [("http://a.example", some 0), ("Host", some 1)], none⟩) :=
  ⟨(getProtocolAndDomain_idempotent sampleLib sampleLowerTable_ne_slash
      sampleLowerTable_lower).1 "HTTP://École.Example/Path",
    by decide,
    (getProtocolAndDomain_idempotent sampleLib sampleLowerTable_ne_slash
      sampleLowerTable_lower).2 ⟨"HTTP://A.Example/x Host", 0, 0⟩
      ⟨.table [("http://a.example", some 0), ("Host", some 1)], none⟩ (by decide)
      "Host" (by decide)⟩

end Keycloak
